import Mathlib

/-!
Verification development for the PDF converter pipeline
(`src/utils.py` and the operation boundaries in `src/main.py`).

Python strings are modelled as `List Char`, bytes/pages as type
parameters, and raised `HTTPException`s as an `Except` error type
carrying the structured content of the raised detail.
-/

abbrev Str := List Char

instance exceptDecEq {ε α : Type} [DecidableEq ε] [DecidableEq α] :
    DecidableEq (Except ε α) := fun x y =>
  match x, y with
  | .ok a, .ok b =>
    if h : a = b then .isTrue (congrArg _ h)
    else .isFalse (fun hh => h (Except.ok.inj hh))
  | .error a, .error b =>
    if h : a = b then .isTrue (congrArg _ h)
    else .isFalse (fun hh => h (Except.error.inj hh))
  | .ok _, .error _ => .isFalse (fun hh => Except.noConfusion hh)
  | .error _, .ok _ => .isFalse (fun hh => Except.noConfusion hh)

/-- Structured model of the `HTTPException`s raised by the pipeline:
400 with the invalid page-range detail, 400 naming a missing page,
404 naming the missing files, and 500 with a detail string. -/
inductive PdfError where
  | invalidFormat
  | pageOutOfRange (page : Int)
  | fileNotFound (missing : List Str)
  | internal (detail : Str)
deriving DecidableEq, Repr

/-! ### Python primitives: int(), str.strip(), str.split(sep) -/

/-- Decimal digit character, used to render concrete numerals. -/
def digitChar (n : Nat) : Char := Char.ofNat (48 + n)

/-- Value of a digit string, most significant first. -/
def digitsVal (s : Str) : Nat := s.foldl (fun a c => a * 10 + (c.toNat - 48)) 0

/-- Parse a nonempty all-digit string to a natural number
(the digit-string core of Python int(); unicode digits and
underscore separators are not modelled, no claim mentions them). -/
def parseDigits (s : Str) : Option Nat :=
  if s ≠ [] ∧ s.all Char.isDigit then some (digitsVal s) else none

/-- Python str.strip(): drop whitespace from both ends. -/
def trimChars (s : Str) : Str :=
  ((s.dropWhile Char.isWhitespace).reverse.dropWhile Char.isWhitespace).reverse

/-- Python int(string): strip whitespace, optional single sign, digits. -/
def pyInt (s : Str) : Option Int :=
  match trimChars s with
  | [] => none
  | c :: rest =>
    if c = '-' then (parseDigits rest).map (fun n => -(n : Int))
    else if c = '+' then (parseDigits rest).map (fun n => (n : Int))
    else (parseDigits (c :: rest)).map (fun n => (n : Int))

/-- Python str.split(sep) for a one-character separator: splits at every
occurrence, keeping empty pieces, and returns the singleton piece for
the empty string. -/
def splitOnChar (c : Char) : Str → List Str
  | [] => [[]]
  | x :: xs =>
    if x = c then [] :: splitOnChar c xs
    else
      match splitOnChar c xs with
      | [] => [[x]]
      | h :: t => (x :: h) :: t

/-- Python range(a, b) over integers, as a list. -/
def pyRange (a b : Int) : List Int :=
  (List.range (b - a).toNat).map (fun k => a + Int.ofNat k)

/-! ### parse_page_ranges (src/utils.py lines 45-60) -/

/-- Body of the per-token work inside the loop of parse_page_ranges:
strip the token; a token containing a hyphen must split into exactly
two integers start and end and contributes range(start-1, end); any
other token must be a single integer n and contributes n-1.  Any
failed int() conversion or wrong arity is the ValueError of the
source, modelled as the error case. -/
def parsePart (rawPart : Str) : Except Unit (List Int) :=
  let part := trimChars rawPart
  if '-' ∈ part then
    match splitOnChar '-' part with
    | [s, e] =>
      match pyInt s, pyInt e with
      | some a, some b => .ok (pyRange (a - 1) b)
      | _, _ => .error ()
    | _ => .error ()
  else
    match pyInt part with
    | some n => .ok [n - 1]
    | none => .error ()

/-- The for-loop of parse_page_ranges: extend the accumulator with the
indices of each comma-separated token, propagating the first
ValueError. -/
def collectIndices : List Str → Except Unit (List Int)
  | [] => .ok []
  | p :: ps =>
    match parsePart p, collectIndices ps with
    | .ok l, .ok rest => .ok (l ++ rest)
    | .error e, _ => .error e
    | _, .error e => .error e

/-- sorted(list(set(l))): the sorted list of the distinct elements of l
(sorting first and then removing duplicates yields exactly that list). -/
def sortedDedup (l : List Int) : List Int :=
  (List.insertionSort (· ≤ ·) l).dedup

/-- parse_page_ranges (src/utils.py lines 45-60): split the input on
commas, collect each token's zero-based indices, and return them
sorted with duplicates removed; a ValueError from any token
propagates. -/
def parse_page_ranges (pages : Str) : Except Unit (List Int) :=
  match collectIndices (splitOnChar ',' pages) with
  | .ok l => .ok (sortedDedup l)
  | .error e => .error e

/-! ### split_pdf (src/utils.py lines 63-100) -/

/-- The page-copying loop of split_pdf: walk the parsed page numbers in
order; an in-bounds number copies the corresponding source page, an
out-of-bounds number raises the 400 error naming the one-based page
number; on success the copied pages are returned. -/
def split_core (doc : List α) : List Int → Except PdfError (List α)
  | [] => .ok []
  | n :: rest =>
    if h : 0 ≤ n ∧ n < (doc.length : Int) then
      (split_core doc rest).map (fun pages => doc.get ⟨n.toNat, by omega⟩ :: pages)
    else .error (.pageOutOfRange (n + 1))

/-- split_pdf (src/utils.py lines 63-100): parse the page-range string
(a ValueError becomes the 400 invalid-format error before the
document is read), then copy the requested pages. -/
def split_pdf (doc : List α) (pages : Str) : Except PdfError (List α) :=
  match parse_page_ranges pages with
  | .error _ => .error .invalidFormat
  | .ok nums => split_core doc nums

/-! ### merge_pdfs (src/utils.py lines 103-139) -/

/-- merge_pdfs (src/utils.py lines 103-139): the session file table is
an association from filename to page list.  First every requested
filename is checked against the table, and the full list of missing
names is raised as the 404 error; only then are the documents
appended, in the order of the filename list. -/
def merge_pdfs (filenames : List Str) (session_files : List (Str × List α)) :
    Except PdfError (List α) :=
  let missing := filenames.filter (fun f => (session_files.lookup f).isNone)
  if missing = [] then
    .ok (filenames.flatMap (fun f => (session_files.lookup f).getD []))
  else .error (.fileNotFound missing)

/-! ### rotate_pages_in_pdf (src/utils.py lines 278-316) -/

/-- A PDF page as the rotate operation sees it: opaque content plus the
accumulated rotation value stored on the page. -/
structure PdfPage (α : Type) where
  content : α
  rot : Int
deriving DecidableEq, Repr

/-- page.rotate(angle): PyPDF2 adds the angle to the rotation already
stored on the page (cumulative, no normalisation). -/
def pageRotate (p : PdfPage α) (angle : Int) : PdfPage α :=
  { content := p.content, rot := p.rot + angle }

/-- The dict comprehension of rotate_pages_in_pdf: a Python dict built
from a pair list binds each key to the value of its last occurrence, so
lookup goes through the reversed list. -/
def rotationsDict (rotations : List (Int × Int)) (k : Int) : Option Int :=
  rotations.reverse.lookup k

/-- Per-page body of the rotation loop: a page whose one-based number
is mapped to a nonzero angle is rotated, every other page passes
through unchanged. -/
def rotOne (rotations : List (Int × Int)) (k : Int) (p : PdfPage α) : PdfPage α :=
  match rotationsDict rotations k with
  | some angle => if angle ≠ 0 then pageRotate p angle else p
  | none => p

/-- The enumerate loop of rotate_pages_in_pdf, carrying the zero-based
position i; every page is written to the writer. -/
def rotateAux (rotations : List (Int × Int)) : Nat → List (PdfPage α) → List (PdfPage α)
  | _, [] => []
  | i, p :: rest => rotOne rotations ((i : Int) + 1) p :: rotateAux rotations (i + 1) rest

/-- rotate_pages_in_pdf (src/utils.py lines 278-316). -/
def rotate_pages_in_pdf (doc : List (PdfPage α)) (rotations : List (Int × Int)) :
    List (PdfPage α) :=
  rotateAux rotations 0 doc

/-! ### combine_archives (src/utils.py lines 252-275) -/

/-- Decimal rendering of a natural number, fuel-indexed so that it is
structurally recursive and kernel-evaluable. -/
def natDigitsAux : Nat → Nat → Str
  | 0, _ => []
  | fuel + 1, n =>
    if n < 10 then [digitChar n]
    else natDigitsAux fuel (n / 10) ++ [digitChar (n % 10)]

/-- Decimal rendering of a natural number (Python str(n) for n ≥ 0). -/
def natDigits (n : Nat) : Str := natDigitsAux (n + 1) n

/-- The combined-archive entry name file_idx/name built by the f-string
in combine_archives. -/
def mkEntryName (idx : Nat) (n : Str) : Str :=
  ("file_").toList ++ natDigits idx ++ '/' :: n

/-- ZipFile.read(name): the name-to-member table of a zip file binds a
duplicated entry name to its most recently written member, so reading
by name returns the bytes of the last entry with that name. -/
def zipReadLast (ar : List (Str × α)) (n : Str) : Option α :=
  ar.reverse.lookup n

/-- Inner loop of combine_archives for one source archive: every name
in the entry list is rewritten under the file_idx/ directory, with
the bytes that ZipFile.read resolves for that name. -/
def combineChunk (idx : Nat) (ar : List (Str × α)) : List (Str × α) :=
  ar.map (fun e => (mkEntryName idx e.1, (zipReadLast ar e.1).getD e.2))

/-- The enumerate(individual_archives, start=1) loop of
combine_archives. -/
def combineAux : Nat → List (List (Str × α)) → List (Str × α)
  | _, [] => []
  | idx, ar :: rest => combineChunk idx ar ++ combineAux (idx + 1) rest

/-- combine_archives (src/utils.py lines 252-275): archives are
sequences of (entry name, bytes) pairs. -/
def combine_archives (archives : List (List (Str × α))) : List (Str × α) :=
  combineAux 1 archives

/-! ### The unexpected-failure boundaries (except-Exception clauses)

split_pdf lines 98-100, merge_pdfs lines 134-136 and
rotate_pages_in_pdf lines 314-316 of src/utils.py,
convert_pdf_to_jpeg lines 200-202 of src/utils.py, and the rotate
route lines 304-306 of src/main.py each map an unexpected exception
with text e to the HTTP 500 detail below. -/

/-- Except-clause of split_pdf (src/utils.py lines 98-100). -/
def split_unexpected (e : Str) : PdfError :=
  .internal (("Ошибка при обработке PDF: ").toList ++ e)

/-- Except-clause of merge_pdfs (src/utils.py lines 134-136). -/
def merge_unexpected (e : Str) : PdfError :=
  .internal (("Ошибка при объединении PDF: ").toList ++ e)

/-- Except-clause of rotate_pages_in_pdf (src/utils.py lines 314-316). -/
def rotate_utils_unexpected (e : Str) : PdfError :=
  .internal (("Ошибка при повороте страниц: ").toList ++ e)

/-- Except-clause of convert_pdf_to_jpeg (src/utils.py lines 200-202). -/
def convert_unexpected (e : Str) : PdfError :=
  .internal (("Error converting PDF to JPEG: ").toList ++ e)

/-- Except-clause of the rotate route (src/main.py lines 304-306),
whose detail is str(e) verbatim. -/
def rotate_route_unexpected (e : Str) : PdfError := .internal e

/-! ### Token rendering, for claims quantified over well-formed inputs -/

/-- A well-formed page-range token: a single one-based page number or a
hyphenated inclusive range. -/
inductive PageTok where
  | single (n : Nat)
  | interval (s e : Nat)
deriving DecidableEq, Repr

/-- Decimal text of a token. -/
def renderTok : PageTok → Str
  | .single n => natDigits n
  | .interval s e => natDigits s ++ '-' :: natDigits e

/-- Comma-joined text of a token list (inverse image of str.split). -/
def intercalateChar (c : Char) : List Str → Str
  | [] => []
  | [p] => p
  | p :: ps => p ++ c :: intercalateChar c ps

/-- The input string denoting a list of tokens. -/
def renderToks (toks : List PageTok) : Str :=
  intercalateChar ',' (toks.map renderTok)

/-- The zero-based indices a token contributes, per the source:
n-1 for a single page, range(s-1, e) for a range. -/
def tokIndices : PageTok → List Int
  | .single n => [(n : Int) - 1]
  | .interval s e => pyRange ((s : Int) - 1) (e : Int)

/-- Claim-side meaning of a token: the zero-based indices of the pages
it names, as an interval predicate independent of the code. -/
def tokMem : PageTok → Int → Prop
  | .single n, x => x = (n : Int) - 1
  | .interval s e, x => (s : Int) - 1 ≤ x ∧ x ≤ (e : Int) - 1

/-! ### Lemmas about decimal rendering -/

lemma digitChar_spec {n : Nat} (h : n < 10) :
    (digitChar n).isDigit = true ∧ (digitChar n).toNat = 48 + n := by
  interval_cases n <;> exact ⟨by decide, by decide⟩

lemma digitChar_not_special {n : Nat} (h : n < 10) :
    digitChar n ≠ ',' ∧ digitChar n ≠ '-' ∧ digitChar n ≠ '/' ∧
      (digitChar n).isWhitespace = false ∧ digitChar n ≠ '+' := by
  interval_cases n <;> exact ⟨by decide, by decide, by decide, by decide, by decide⟩

lemma digitsVal_append_digit (s : Str) (c : Char) :
    digitsVal (s ++ [c]) = digitsVal s * 10 + (c.toNat - 48) := by
  simp [digitsVal, List.foldl_append]

lemma natDigitsAux_spec : ∀ fuel n, n < fuel →
    natDigitsAux fuel n ≠ [] ∧ (natDigitsAux fuel n).all Char.isDigit = true ∧
      digitsVal (natDigitsAux fuel n) = n := by
  intro fuel
  induction fuel with
  | zero => intro n h; omega
  | succ fuel ih =>
    intro n h
    by_cases hn : n < 10
    · simp only [natDigitsAux, if_pos hn]
      obtain ⟨hd, hv⟩ := digitChar_spec hn
      refine ⟨by simp, by simp [hd], ?_⟩
      simp [digitsVal, hv]
    · have hdiv : n / 10 < fuel := by omega
      obtain ⟨h1, h2, h3⟩ := ih (n / 10) hdiv
      simp only [natDigitsAux, if_neg hn]
      have hm : n % 10 < 10 := Nat.mod_lt _ (by omega)
      obtain ⟨hmd, hmv⟩ := digitChar_spec hm
      refine ⟨by simp, ?_, ?_⟩
      · simp only [List.all_append, h2, Bool.true_and, List.all_cons, List.all_nil,
          Bool.and_true, hmd]
      · rw [digitsVal_append_digit, h3, hmv]
        omega

lemma natDigits_ne_nil (n : Nat) : natDigits n ≠ [] :=
  (natDigitsAux_spec (n + 1) n (Nat.lt_succ_self n)).1

lemma natDigits_all_digit (n : Nat) : (natDigits n).all Char.isDigit = true :=
  (natDigitsAux_spec (n + 1) n (Nat.lt_succ_self n)).2.1

lemma parseDigits_natDigits (n : Nat) : parseDigits (natDigits n) = some n := by
  have h := natDigitsAux_spec (n + 1) n (Nat.lt_succ_self n)
  simp only [parseDigits, natDigits] at h ⊢
  rw [if_pos ⟨h.1, h.2.1⟩, h.2.2]

lemma natDigits_injective : Function.Injective natDigits := by
  intro a b h
  have ha := parseDigits_natDigits a
  have hb := parseDigits_natDigits b
  rw [h, hb] at ha
  exact (Option.some.inj ha).symm

lemma mem_natDigits_isDigit {n : Nat} {c : Char} (h : c ∈ natDigits n) :
    c.isDigit = true := by
  have := natDigits_all_digit n
  rw [List.all_eq_true] at this
  exact this c h

lemma isDigit_not_special {c : Char} (h : c.isDigit = true) :
    c ≠ ',' ∧ c ≠ '-' ∧ c ≠ '/' ∧ c.isWhitespace = false ∧ c ≠ '+' := by
  have hc : 48 ≤ c.toNat ∧ c.toNat ≤ 57 := by
    simpa [Char.isDigit, Char.le_def, decide_eq_true_eq] using h
  refine ⟨?_, ?_, ?_, ?_, ?_⟩
  · intro hh; subst hh; simp at hc
  · intro hh; subst hh; simp at hc
  · intro hh; subst hh; simp at hc
  · revert hc
    simp only [Char.isWhitespace]
    intro hc
    have h32 : ¬ c = ' ' := by intro hh; subst hh; simp at hc
    have h9 : ¬ c = '\t' := by intro hh; subst hh; simp at hc
    have h10 : ¬ c = '\n' := by intro hh; subst hh; simp at hc
    have h13 : ¬ c = '\x0d' := by intro hh; subst hh; simp at hc
    simp [h32, h9, h10, h13]
  · intro hh; subst hh; simp at hc

/-! ### Lemmas about trimming, int() and splitting -/

lemma dropWhile_eq_self_of_not {p : Char → Bool} {s : Str}
    (h : ∀ c ∈ s, p c = false) : s.dropWhile p = s := by
  cases s with
  | nil => rfl
  | cons c cs => simp [List.dropWhile_cons, h c (List.mem_cons_self c cs)]

lemma trimChars_eq_self {s : Str} (h : ∀ c ∈ s, c.isWhitespace = false) :
    trimChars s = s := by
  unfold trimChars
  rw [dropWhile_eq_self_of_not h, dropWhile_eq_self_of_not
    (fun c hc => h c (List.mem_reverse.mp hc)), List.reverse_reverse]

lemma pyInt_natDigits (n : Nat) : pyInt (natDigits n) = some (n : Int) := by
  have htrim : trimChars (natDigits n) = natDigits n :=
    trimChars_eq_self (fun c hc => (isDigit_not_special (mem_natDigits_isDigit hc)).2.2.2.1)
  obtain ⟨c, cs, hcons⟩ := List.exists_cons_of_ne_nil (natDigits_ne_nil n)
  have hcd : c.isDigit = true := mem_natDigits_isDigit (by rw [hcons]; exact List.mem_cons_self c cs)
  obtain ⟨-, hcm, -, -, hcp⟩ := isDigit_not_special hcd
  unfold pyInt
  rw [htrim, hcons]
  dsimp only
  rw [if_neg hcm, if_neg hcp, ← hcons, parseDigits_natDigits]
  rfl

lemma splitOnChar_ne_nil (c : Char) (s : Str) : splitOnChar c s ≠ [] := by
  induction s with
  | nil => simp [splitOnChar]
  | cons x xs ih =>
    by_cases hx : x = c
    · simp [splitOnChar, hx]
    · simp only [splitOnChar, if_neg hx]
      cases h : splitOnChar c xs with
      | nil => simp
      | cons hh tt => simp

lemma splitOnChar_no_sep {c : Char} {s : Str} (h : c ∉ s) :
    splitOnChar c s = [s] := by
  induction s with
  | nil => rfl
  | cons x xs ih =>
    have hx : x ≠ c := fun hh => h (hh ▸ List.mem_cons_self x xs)
    have hxs : c ∉ xs := fun hh => h (List.mem_cons_of_mem x hh)
    simp only [splitOnChar, if_neg hx, ih hxs]

lemma splitOnChar_append_sep {c : Char} {s t : Str} (h : c ∉ s) :
    splitOnChar c (s ++ c :: t) = s :: splitOnChar c t := by
  induction s with
  | nil => simp [splitOnChar]
  | cons x xs ih =>
    have hx : x ≠ c := fun hh => h (hh ▸ List.mem_cons_self x xs)
    have hxs : c ∉ xs := fun hh => h (List.mem_cons_of_mem x hh)
    simp only [List.cons_append, splitOnChar, if_neg hx, List.append_eq]
    rw [ih hxs]

lemma splitOnChar_intercalateChar {c : Char} :
    ∀ {parts : List Str}, parts ≠ [] → (∀ p ∈ parts, c ∉ p) →
      splitOnChar c (intercalateChar c parts) = parts := by
  intro parts
  induction parts with
  | nil => intro h; exact absurd rfl h
  | cons p ps ih =>
    intro _ hall
    cases ps with
    | nil =>
      simpa [intercalateChar] using splitOnChar_no_sep (hall p (by simp))
    | cons q qs =>
      have hp : c ∉ p := hall p (by simp)
      have hrest : ∀ r ∈ q :: qs, c ∉ r := fun r hr => hall r (List.mem_cons_of_mem p hr)
      calc splitOnChar c (intercalateChar c (p :: q :: qs))
          = splitOnChar c (p ++ c :: intercalateChar c (q :: qs)) := rfl
        _ = p :: splitOnChar c (intercalateChar c (q :: qs)) := splitOnChar_append_sep hp
        _ = p :: q :: qs := by rw [ih (by simp) hrest]

/-! ### Rendered tokens parse back to their indices -/

lemma renderTok_no_comma (t : PageTok) : ',' ∉ renderTok t := by
  cases t with
  | single n =>
    intro h
    exact (isDigit_not_special (mem_natDigits_isDigit h)).1 rfl
  | interval s e =>
    intro h
    simp only [renderTok, List.mem_append, List.mem_cons] at h
    rcases h with h | h | h
    · exact (isDigit_not_special (mem_natDigits_isDigit h)).1 rfl
    · exact absurd h.symm (by decide)
    · exact (isDigit_not_special (mem_natDigits_isDigit h)).1 rfl

lemma renderTok_no_ws (t : PageTok) : ∀ c ∈ renderTok t, c.isWhitespace = false := by
  cases t with
  | single n =>
    exact fun c hc => (isDigit_not_special (mem_natDigits_isDigit hc)).2.2.2.1
  | interval s e =>
    intro c hc
    simp only [renderTok, List.mem_append, List.mem_cons] at hc
    rcases hc with h | h | h
    · exact (isDigit_not_special (mem_natDigits_isDigit h)).2.2.2.1
    · subst h; decide
    · exact (isDigit_not_special (mem_natDigits_isDigit h)).2.2.2.1

lemma parsePart_renderTok (t : PageTok) : parsePart (renderTok t) = .ok (tokIndices t) := by
  have htrim : trimChars (renderTok t) = renderTok t := trimChars_eq_self (renderTok_no_ws t)
  cases t with
  | single n =>
    have hnm : '-' ∉ renderTok (PageTok.single n) := fun h =>
      (isDigit_not_special (mem_natDigits_isDigit h)).2.1 rfl
    unfold parsePart
    rw [htrim, if_neg hnm]
    dsimp only [renderTok]
    rw [pyInt_natDigits]
    rfl
  | interval s e =>
    have hs : '-' ∉ natDigits s := fun h =>
      (isDigit_not_special (mem_natDigits_isDigit h)).2.1 rfl
    have he : '-' ∉ natDigits e := fun h =>
      (isDigit_not_special (mem_natDigits_isDigit h)).2.1 rfl
    have hmem : '-' ∈ renderTok (PageTok.interval s e) := by
      simp [renderTok]
    have hsplit : splitOnChar '-' (renderTok (PageTok.interval s e)) =
        [natDigits s, natDigits e] := by
      simp only [renderTok]
      rw [splitOnChar_append_sep hs, splitOnChar_no_sep he]
    unfold parsePart
    rw [htrim, if_pos hmem, hsplit]
    dsimp only
    rw [pyInt_natDigits, pyInt_natDigits]
    rfl

lemma collectIndices_renderToks (toks : List PageTok) :
    collectIndices (toks.map renderTok) = .ok ((toks.map tokIndices).flatten) := by
  induction toks with
  | nil => rfl
  | cons t ts ih =>
    simp only [List.map_cons, collectIndices, parsePart_renderTok, ih, List.flatten_cons]

lemma parse_page_ranges_renderToks {toks : List PageTok} (h : toks ≠ []) :
    parse_page_ranges (renderToks toks) =
      .ok (sortedDedup ((toks.map tokIndices).flatten)) := by
  have hmap : toks.map renderTok ≠ [] := by
    cases toks with
    | nil => exact absurd rfl h
    | cons t ts => simp
  have hsplit : splitOnChar ',' (renderToks toks) = toks.map renderTok :=
    splitOnChar_intercalateChar hmap (by
      intro p hp
      obtain ⟨t, -, rfl⟩ := List.mem_map.mp hp
      exact renderTok_no_comma t)
  unfold parse_page_ranges
  rw [hsplit, collectIndices_renderToks]

/-! ### The sorted deduplicated result and range membership -/

lemma sortedDedup_sorted_le (l : List Int) : (sortedDedup l).Sorted (· ≤ ·) :=
  (List.sorted_insertionSort (· ≤ ·) l).sublist (List.dedup_sublist _)

lemma sortedDedup_nodup (l : List Int) : (sortedDedup l).Nodup :=
  List.nodup_dedup _

lemma sortedDedup_sorted_lt (l : List Int) : (sortedDedup l).Sorted (· < ·) := by
  have hle : (sortedDedup l).Pairwise (· ≤ ·) := sortedDedup_sorted_le l
  have hne : (sortedDedup l).Pairwise (· ≠ ·) := sortedDedup_nodup l
  exact (hle.and hne).imp (fun h => lt_of_le_of_ne h.1 h.2)

lemma mem_sortedDedup {l : List Int} {x : Int} : x ∈ sortedDedup l ↔ x ∈ l :=
  (List.mem_dedup).trans (List.perm_insertionSort (· ≤ ·) l).mem_iff

lemma mem_pyRange {a b x : Int} : x ∈ pyRange a b ↔ a ≤ x ∧ x < b := by
  constructor
  · intro hx
    obtain ⟨k, hk, he⟩ := List.mem_map.mp hx
    rw [List.mem_range] at hk
    rw [← he, Int.ofNat_eq_coe]
    omega
  · intro hx
    refine List.mem_map.mpr ⟨(x - a).toNat, ?_, ?_⟩
    · rw [List.mem_range]; omega
    · rw [Int.ofNat_eq_coe]; omega

lemma mem_tokIndices_iff {t : PageTok} {x : Int} : x ∈ tokIndices t ↔ tokMem t x := by
  cases t with
  | single n => simp [tokIndices, tokMem]
  | interval s e =>
    simp only [tokIndices, tokMem, mem_pyRange]
    omega

/-! ### Lemmas about the split loop -/

lemma split_core_ok {α : Type} {doc : List α} {nums : List Int}
    (h : ∀ n ∈ nums, 0 ≤ n ∧ n < (doc.length : Int)) :
    split_core doc nums = .ok (nums.filterMap (fun n => doc[n.toNat]?)) := by
  induction nums with
  | nil => rfl
  | cons n rest ih =>
    have hn : 0 ≤ n ∧ n < (doc.length : Int) := h n (List.mem_cons_self n rest)
    have hlt : n.toNat < doc.length := by omega
    rw [split_core, dif_pos hn, ih (fun m hm => h m (List.mem_cons_of_mem n hm))]
    rw [List.filterMap_cons, List.getElem?_eq_getElem hlt]
    rfl

lemma split_core_out_of_range {α : Type} {doc : List α} {nums : List Int}
    (h : ∃ n ∈ nums, n < 0 ∨ (doc.length : Int) ≤ n) :
    ∃ m, (m ∈ nums ∧ (m < 0 ∨ (doc.length : Int) ≤ m)) ∧
      split_core doc nums = .error (.pageOutOfRange (m + 1)) := by
  induction nums with
  | nil => obtain ⟨n, hn, -⟩ := h; exact absurd hn (List.not_mem_nil n)
  | cons n rest ih =>
    by_cases hn : 0 ≤ n ∧ n < (doc.length : Int)
    · have hrest : ∃ m ∈ rest, m < 0 ∨ (doc.length : Int) ≤ m := by
        obtain ⟨m, hm, hbad⟩ := h
        rcases List.mem_cons.mp hm with rfl | hm2
        · omega
        · exact ⟨m, hm2, hbad⟩
      obtain ⟨m, ⟨hm1, hm2⟩, herr⟩ := ih hrest
      refine ⟨m, ⟨List.mem_cons_of_mem n hm1, hm2⟩, ?_⟩
      rw [split_core, dif_pos hn, herr]
      rfl
    · refine ⟨n, ⟨List.mem_cons_self n rest, by omega⟩, ?_⟩
      rw [split_core, dif_neg hn]

/-! ### Lemmas about the rotation loop -/

lemma rotOne_content (rots : List (Int × Int)) (k : Int) (p : PdfPage α) :
    (rotOne rots k p).content = p.content := by
  unfold rotOne
  split <;> first
    | rfl
    | (split <;> simp [pageRotate])

lemma rotOne_id {rots : List (Int × Int)} {k : Int} (p : PdfPage α)
    (h : (rotationsDict rots k).getD 0 = 0) : rotOne rots k p = p := by
  unfold rotOne
  cases hd : rotationsDict rots k with
  | none => rfl
  | some a =>
    rw [hd] at h
    simp only [Option.getD_some] at h
    simp [h]

lemma rotOne_congr {rots1 rots2 : List (Int × Int)} {k : Int} (p : PdfPage α)
    (h : rotationsDict rots1 k = rotationsDict rots2 k) :
    rotOne rots1 k p = rotOne rots2 k p := by
  unfold rotOne
  rw [h]

lemma rotateAux_content (rots : List (Int × Int)) :
    ∀ (doc : List (PdfPage α)) (i : Nat),
      (rotateAux rots i doc).map PdfPage.content = doc.map PdfPage.content := by
  intro doc
  induction doc with
  | nil => intro i; rfl
  | cons p rest ih =>
    intro i
    simp only [rotateAux, List.map_cons, rotOne_content, ih (i + 1)]

lemma rotateAux_getElem? (rots : List (Int × Int)) :
    ∀ (doc : List (PdfPage α)) (i j : Nat),
      (rotateAux rots i doc)[j]? =
        (doc[j]?).map (rotOne rots (((i + j : Nat) : Int) + 1)) := by
  intro doc
  induction doc with
  | nil => intro i j; rfl
  | cons p rest ih =>
    intro i j
    cases j with
    | zero => simp [rotateAux]
    | succ j =>
      have hn : (i + 1) + j = i + (j + 1) := by omega
      simp only [rotateAux, List.getElem?_cons_succ, ih (i + 1) j, hn]

lemma rotateAux_congr {rots1 rots2 : List (Int × Int)} :
    ∀ (doc : List (PdfPage α)) (i : Nat),
      (∀ k : Int, (i : Int) + 1 ≤ k → k ≤ (i : Int) + doc.length →
        rotationsDict rots1 k = rotationsDict rots2 k) →
      rotateAux rots1 i doc = rotateAux rots2 i doc := by
  intro doc
  induction doc with
  | nil => intro i _; rfl
  | cons p rest ih =>
    intro i h
    have hhead : rotationsDict rots1 ((i : Int) + 1) = rotationsDict rots2 ((i : Int) + 1) := by
      refine h _ le_rfl ?_
      simp only [List.length_cons]
      omega
    have htail : rotateAux rots1 (i + 1) rest = rotateAux rots2 (i + 1) rest := by
      refine ih (i + 1) (fun k hk1 hk2 => h k (by push_cast at hk1 ⊢; omega) ?_)
      push_cast at hk2 ⊢
      simp only [List.length_cons]
      push_cast
      omega
    simp only [rotateAux, rotOne_congr p hhead, htail]

lemma lookup_filter_range {β : Type} (L : Int) :
    ∀ {l : List (Int × β)} {k : Int}, 1 ≤ k → k ≤ L →
      (l.filter (fun r => decide (1 ≤ r.1 ∧ r.1 ≤ L))).lookup k = l.lookup k := by
  intro l
  induction l with
  | nil => intro k _ _; rfl
  | cons e t ih =>
    intro k hk1 hk2
    by_cases hb : k = e.1
    · have hpe : decide (1 ≤ e.1 ∧ e.1 ≤ L) = true := decide_eq_true (hb ▸ ⟨hk1, hk2⟩)
      rw [List.filter_cons, if_pos (by simpa using hpe)]
      have hbeq : (k == e.1) = true := beq_iff_eq.mpr hb
      cases e with
      | mk kh v => simp only [List.lookup, hbeq]
    · have hbeq : (k == e.1) = false := beq_eq_false_iff_ne.mpr hb
      cases hpe : decide (1 ≤ e.1 ∧ e.1 ≤ L) with
      | true =>
        rw [List.filter_cons, if_pos (by simpa using hpe)]
        cases e with
        | mk kh v => simp only [List.lookup, hbeq, ih hk1 hk2]
      | false =>
        rw [List.filter_cons, if_neg (by simpa using hpe)]
        cases e with
        | mk kh v => simp only [List.lookup, hbeq, ih hk1 hk2]

lemma rotationsDict_drop_dup {pre post : List (Int × Int)} {k a : Int}
    (h : k ∈ post.map Prod.fst) (j : Int) :
    rotationsDict (pre ++ (k, a) :: post) j = rotationsDict (pre ++ post) j := by
  have hL : (pre ++ (k, a) :: post).reverse = post.reverse ++ ((k, a) :: pre.reverse) := by
    rw [List.reverse_append, List.reverse_cons, List.append_assoc, List.singleton_append]
  have hR : (pre ++ post).reverse = post.reverse ++ pre.reverse := List.reverse_append pre post
  unfold rotationsDict
  rw [hL, hR, List.lookup_append, List.lookup_append]
  cases hpv : List.lookup j post.reverse with
  | some v => rfl
  | none =>
    have hj : j ≠ k := by
      intro hh
      subst hh
      obtain ⟨e, he, hfst⟩ := List.mem_map.mp h
      have hsome : (List.lookup j post.reverse).isSome :=
        List.lookup_isSome_iff.mpr ⟨e, List.mem_reverse.mpr he, by rw [hfst]; simp⟩
      rw [hpv] at hsome
      simp at hsome
    have hbeq : (j == k) = false := beq_eq_false_iff_ne.mpr hj
    rw [Option.none_or, Option.none_or, List.lookup_cons, hbeq]

/-! ### Lemmas about association lookup with distinct keys -/

lemma lookup_of_mem_nodup_keys {κ : Type*} {β : Type*} [BEq κ] [LawfulBEq κ] :
    ∀ {l : List (κ × β)} {k : κ} {b : β},
      (l.map Prod.fst).Nodup → (k, b) ∈ l → l.lookup k = some b := by
  intro l
  induction l with
  | nil => intro k b _ hm; cases hm
  | cons e t ih =>
    intro k b hnd hm
    have hnd2 := hnd
    rw [List.map_cons, List.nodup_cons] at hnd2
    rcases List.mem_cons.mp hm with heq | hm2
    · rw [← heq, List.lookup_cons]
      simp
    · have hkk : k ≠ e.1 := by
        intro hh
        exact hnd2.1 (hh ▸ List.mem_map.mpr ⟨(k, b), hm2, rfl⟩)
      cases e with
      | mk k' v =>
        have hbeq : (k == k') = false := beq_eq_false_iff_ne.mpr hkk
        rw [List.lookup_cons, hbeq]
        exact ih hnd2.2 hm2

lemma zipReadLast_of_nodup {ar : List (Str × α)} {n : Str} {b : α}
    (hnd : (ar.map Prod.fst).Nodup) (hm : (n, b) ∈ ar) :
    zipReadLast ar n = some b := by
  unfold zipReadLast
  have hndr : (ar.reverse.map Prod.fst).Nodup := by
    rw [List.map_reverse]
    exact List.nodup_reverse.mpr hnd
  exact @lookup_of_mem_nodup_keys Str α _ _ ar.reverse n b hndr (List.mem_reverse.mpr hm)

/-! ### Lemmas about archive combination -/

lemma takeWhile_append_stop {p : Char → Bool} {x : Char} (t : Str) :
    ∀ {d : Str}, (∀ c ∈ d, p c = true) → p x = false →
      (d ++ x :: t).takeWhile p = d := by
  intro d
  induction d with
  | nil => intro _ hx; simp [List.takeWhile_cons, hx]
  | cons c cs ih =>
    intro hall hx
    have hc : p c = true := hall c (List.mem_cons_self c cs)
    simp only [List.cons_append, List.takeWhile_cons, hc, if_true]
    rw [ih (fun u hu => hall u (List.mem_cons_of_mem c hu)) hx]

/-- Reads back the 1-based archive ordinal baked into a combined entry
name; used to show the renaming is collision-free. -/
def entryIdx (s : Str) : Option Nat :=
  parseDigits ((s.drop 5).takeWhile (fun c => !(c = '/')))

lemma drop_five_file (l : Str) : (("file_").toList ++ l).drop 5 = l := rfl

lemma entryIdx_mkEntryName (idx : Nat) (n : Str) :
    entryIdx (mkEntryName idx n) = some idx := by
  unfold entryIdx mkEntryName
  rw [List.append_assoc, drop_five_file, takeWhile_append_stop n (fun c hc => by
    show (!decide (c = '/')) = true
    rw [decide_eq_false (isDigit_not_special (mem_natDigits_isDigit hc)).2.2.1]
    rfl)
    (by decide), parseDigits_natDigits]

lemma mkEntryName_inj {i j : Nat} {n m : Str}
    (h : mkEntryName i n = mkEntryName j m) : i = j ∧ n = m := by
  have hidx : entryIdx (mkEntryName i n) = entryIdx (mkEntryName j m) := by rw [h]
  rw [entryIdx_mkEntryName, entryIdx_mkEntryName] at hidx
  have hij : i = j := Option.some.inj hidx
  subst hij
  unfold mkEntryName at h
  have h2 := List.append_cancel_left h
  refine ⟨rfl, ?_⟩
  injection h2

lemma combineChunk_keys {α : Type} (idx : Nat) (ar : List (Str × α)) :
    (combineChunk idx ar).map Prod.fst = (ar.map Prod.fst).map (mkEntryName idx) := by
  simp only [combineChunk, List.map_map]
  rfl

lemma combineAux_keys_idx {α : Type} :
    ∀ (archives : List (List (Str × α))) (start : Nat) (s : Str),
      s ∈ (combineAux start archives).map Prod.fst →
      ∃ j, start ≤ j ∧ j < start + archives.length ∧ entryIdx s = some j := by
  intro archives
  induction archives with
  | nil => intro start s hs; cases hs
  | cons ar rest ih =>
    intro start s hs
    rw [combineAux, List.map_append] at hs
    rcases List.mem_append.mp hs with hs1 | hs2
    · rw [combineChunk_keys] at hs1
      obtain ⟨n, -, rfl⟩ := List.mem_map.mp hs1
      exact ⟨start, le_rfl, by simp, entryIdx_mkEntryName start n⟩
    · obtain ⟨j, hj1, hj2, hj3⟩ := ih (start + 1) s hs2
      exact ⟨j, by omega, by simp only [List.length_cons]; omega, hj3⟩

lemma combineAux_nodup_keys {α : Type} :
    ∀ (archives : List (List (Str × α))) (start : Nat),
      (∀ ar ∈ archives, (ar.map Prod.fst).Nodup) →
      ((combineAux start archives).map Prod.fst).Nodup := by
  intro archives
  induction archives with
  | nil => intro start _; simp [combineAux]
  | cons ar rest ih =>
    intro start h
    rw [combineAux, List.map_append, List.nodup_append]
    refine ⟨?_, ih (start + 1) (fun a ha => h a (List.mem_cons_of_mem ar ha)), ?_⟩
    · rw [combineChunk_keys]
      exact (h ar (List.mem_cons_self ar rest)).map
        (fun n m hnm => (mkEntryName_inj hnm).2)
    · intro s hs1 hs2
      rw [combineChunk_keys] at hs1
      obtain ⟨n, -, rfl⟩ := List.mem_map.mp hs1
      obtain ⟨j, hj1, -, hj3⟩ := combineAux_keys_idx rest (start + 1) _ hs2
      rw [entryIdx_mkEntryName] at hj3
      have : start = j := Option.some.inj hj3
      omega

lemma combineAux_mem {α : Type} :
    ∀ (archives : List (List (Str × α))) (start i : Nat) (ar : List (Str × α)),
      archives[i]? = some ar → (ar.map Prod.fst).Nodup →
      ∀ n b, (n, b) ∈ ar → (mkEntryName (start + i) n, b) ∈ combineAux start archives := by
  intro archives
  induction archives with
  | nil => intro start i ar hget; simp at hget
  | cons a rest ih =>
    intro start i ar hget hnd n b hm
    cases i with
    | zero =>
      rw [List.getElem?_cons_zero] at hget
      have ha : a = ar := Option.some.inj hget
      subst ha
      rw [combineAux]
      refine List.mem_append_left _ (List.mem_map.mpr ⟨(n, b), hm, ?_⟩)
      rw [zipReadLast_of_nodup hnd hm]
      rfl
    | succ i =>
      rw [List.getElem?_cons_succ] at hget
      have hmem := ih (start + 1) i ar hget hnd n b hm
      rw [combineAux]
      have harith : start + 1 + i = start + (i + 1) := by omega
      rw [harith] at hmem
      exact List.mem_append_right _ hmem

lemma combineAux_length {α : Type} :
    ∀ (archives : List (List (Str × α))) (start : Nat),
      (combineAux start archives).length = (archives.map List.length).sum := by
  intro archives
  induction archives with
  | nil => intro start; rfl
  | cons ar rest ih =>
    intro start
    rw [combineAux, List.length_append, ih (start + 1)]
    simp [combineChunk]

lemma collectIndices_error {parts : List Str}
    (h : ∃ p ∈ parts, parsePart p = .error ()) : collectIndices parts = .error () := by
  induction parts with
  | nil => obtain ⟨p, hp, -⟩ := h; cases hp
  | cons p ps ih =>
    rw [collectIndices]
    cases hp : parsePart p with
    | error e => cases collectIndices ps <;> rfl
    | ok l =>
      have hps : ∃ q ∈ ps, parsePart q = .error () := by
        obtain ⟨q, hq, hqe⟩ := h
        rcases List.mem_cons.mp hq with rfl | hq2
        · rw [hp] at hqe; cases hqe
        · exact ⟨q, hq2, hqe⟩
      rw [ih hps]

lemma parse_ok_sorted {s : Str} {nums : List Int}
    (h : parse_page_ranges s = .ok nums) : nums.Sorted (· < ·) := by
  unfold parse_page_ranges at h
  cases hc : collectIndices (splitOnChar ',' s) with
  | ok l =>
    rw [hc] at h
    have := Except.ok.inj h
    rw [← this]
    exact sortedDedup_sorted_lt l
  | error e => rw [hc] at h; cases h

/-! ## Claims -/

/-- Claim C1: for every input string of comma-separated tokens, each a
one-based integer or a hyphenated inclusive one-based range,
parse_page_ranges returns the sorted, duplicate-free list of the
zero-based indices the tokens denote (in particular the spec examples
1-3,5,7-9 and 3,1-2,2, instantiated in the witness). -/
theorem parse_page_ranges_sorted_dedup_indices (toks : List PageTok) (h : toks ≠ []) :
    ∃ r, parse_page_ranges (renderToks toks) = .ok r ∧
      r.Sorted (· < ·) ∧ r.Nodup ∧ (∀ x, x ∈ r ↔ ∃ t ∈ toks, tokMem t x) := by
  refine ⟨sortedDedup ((toks.map tokIndices).flatten), parse_page_ranges_renderToks h,
    sortedDedup_sorted_lt _, sortedDedup_nodup _, ?_⟩
  intro x
  rw [mem_sortedDedup, List.mem_flatten]
  constructor
  · rintro ⟨l, hl, hx⟩
    obtain ⟨t, ht, rfl⟩ := List.mem_map.mp hl
    exact ⟨t, ht, mem_tokIndices_iff.mp hx⟩
  · rintro ⟨t, ht, hx⟩
    exact ⟨tokIndices t, List.mem_map.mpr ⟨t, ht, rfl⟩, mem_tokIndices_iff.mpr hx⟩

theorem parse_page_ranges_sorted_dedup_indices_witness :
    ∃ r, parse_page_ranges (("1-3,5,7-9").toList) = .ok r ∧
      r.Sorted (· < ·) ∧ r.Nodup ∧
      (∀ x, x ∈ r ↔
        ∃ t ∈ [PageTok.interval 1 3, PageTok.single 5, PageTok.interval 7 9], tokMem t x) := by
  have h := parse_page_ranges_sorted_dedup_indices
    [PageTok.interval 1 3, PageTok.single 5, PageTok.interval 7 9] (by decide)
  rwa [(by decide : renderToks [PageTok.interval 1 3, PageTok.single 5, PageTok.interval 7 9] =
    ("1-3,5,7-9").toList)] at h

/-- Claim C7: an input containing a token that parses as neither an
integer nor a well-formed range makes parse_page_ranges fail with the
ValueError, and split_pdf surfaces this as the invalid-format failure
for every document, before the document is read (the spec examples abc
and 2- are instantiated in the witness). -/
theorem parse_invalid_token_errors (s : Str)
    (h : ∃ part ∈ splitOnChar ',' s, parsePart part = .error ()) :
    parse_page_ranges s = .error () ∧
      ∀ (α : Type) (doc : List α), split_pdf doc s = .error .invalidFormat := by
  have herr : collectIndices (splitOnChar ',' s) = .error () := collectIndices_error h
  have hparse : parse_page_ranges s = .error () := by
    unfold parse_page_ranges
    rw [herr]
  refine ⟨hparse, fun α doc => ?_⟩
  unfold split_pdf
  rw [hparse]

theorem parse_invalid_token_errors_witness :
    (parse_page_ranges (("abc").toList) = .error () ∧
      split_pdf (List.range 3) (("abc").toList) = .error .invalidFormat) ∧
    (parse_page_ranges (("2-").toList) = .error () ∧
      split_pdf (List.range 3) (("2-").toList) = .error .invalidFormat) := by
  have h1 := parse_invalid_token_errors (("abc").toList) (by decide)
  have h2 := parse_invalid_token_errors (("2-").toList) (by decide)
  exact ⟨⟨h1.1, h1.2 Nat (List.range 3)⟩, ⟨h2.1, h2.2 Nat (List.range 3)⟩⟩

/-- Claim C2: when the parsed index list contains an index below zero or
at least the page count, split_pdf fails with the page-out-of-range
error naming the offending one-based page number (index + 1) and
returns no output document (the 10-page/index-15 spec example is
instantiated in the witness). -/
theorem split_pdf_page_out_of_range {α : Type} (doc : List α) (s : Str) (nums : List Int)
    (hparse : parse_page_ranges s = .ok nums)
    (h : ∃ n ∈ nums, n < 0 ∨ (doc.length : Int) ≤ n) :
    ∃ m, (m ∈ nums ∧ (m < 0 ∨ (doc.length : Int) ≤ m)) ∧
      split_pdf doc s = .error (.pageOutOfRange (m + 1)) := by
  obtain ⟨m, hm, herr⟩ := split_core_out_of_range h
  refine ⟨m, hm, ?_⟩
  unfold split_pdf
  rw [hparse]
  exact herr

theorem split_pdf_page_out_of_range_witness :
    split_pdf (List.range 10) (("16").toList) = .error (.pageOutOfRange 16) := by
  obtain ⟨m, ⟨hm, -⟩, herr⟩ := split_pdf_page_out_of_range (List.range 10) (("16").toList)
    [15] (by decide) ⟨15, by decide, by decide⟩
  have hm15 : m = 15 := by simpa using hm
  subst hm15
  simpa using herr

/-- Claim C3: when every parsed index lies inside the document,
split_pdf succeeds and returns exactly the source pages at those
indices, in the ascending order of the parsed (sorted) index list (the
10-page spec example for pages 1 and 10 is instantiated in the
witness). -/
theorem split_pdf_in_range {α : Type} (doc : List α) (s : Str) (nums : List Int)
    (hparse : parse_page_ranges s = .ok nums)
    (h : ∀ n ∈ nums, 0 ≤ n ∧ n < (doc.length : Int)) :
    split_pdf doc s = .ok (nums.filterMap (fun n => doc[n.toNat]?)) ∧
      nums.Sorted (· < ·) := by
  constructor
  · unfold split_pdf
    rw [hparse]
    exact split_core_ok h
  · exact parse_ok_sorted hparse

theorem split_pdf_in_range_witness :
    split_pdf (List.range 10) (("1,10").toList) = .ok [0, 9] := by
  have h := split_pdf_in_range (List.range 10) (("1,10").toList) [0, 9]
    (by decide) (by decide)
  have he : ([0, 9] : List Int).filterMap (fun n => (List.range 10)[n.toNat]?) = [0, 9] := by
    decide
  rw [he] at h
  exact h.1

/-- Claim C9: a hyphenated token whose start exceeds its end parses
successfully and contributes no indices, so splitting on an input made
only of such tokens returns an empty (zero-page) output document with
no error. -/
theorem split_pdf_empty_ranges {α : Type} (doc : List α) (toks : List PageTok)
    (h1 : toks ≠ [])
    (h2 : ∀ t ∈ toks, ∃ s e, t = PageTok.interval s e ∧ e < s) :
    parse_page_ranges (renderToks toks) = .ok [] ∧
      split_pdf doc (renderToks toks) = .ok [] := by
  have hparse := parse_page_ranges_renderToks h1
  have hempty : (toks.map tokIndices).flatten = [] := by
    rw [List.flatten_eq_nil_iff]
    intro l hl
    obtain ⟨t, ht, rfl⟩ := List.mem_map.mp hl
    obtain ⟨s, e, rfl, hse⟩ := h2 t ht
    have hz : ((e : Int) - ((s : Int) - 1)).toNat = 0 := by omega
    simp only [tokIndices, pyRange, hz, List.range_zero, List.map_nil]
  rw [hempty] at hparse
  refine ⟨hparse, ?_⟩
  unfold split_pdf
  rw [hparse]
  rfl

theorem split_pdf_empty_ranges_witness :
    parse_page_ranges (("5-3").toList) = .ok [] ∧
      split_pdf (List.range 4) (("5-3").toList) = .ok [] := by
  have h := split_pdf_empty_ranges (List.range 4) [PageTok.interval 5 3] (by decide)
    (by
      intro t ht
      rw [List.mem_singleton] at ht
      exact ⟨5, 3, ht, by omega⟩)
  rwa [(by decide : renderToks [PageTok.interval 5 3] = ("5-3").toList)] at h

/-- Claim C4: merging fails with the file-not-found error naming all
missing filenames at once when any requested filename is absent from
the session table, and no output is produced; otherwise it returns the
concatenation of every requested document's pages in the order of the
filename list. -/
theorem merge_pdfs_missing_or_append {α : Type} (filenames : List Str)
    (session_files : List (Str × List α)) :
    ((∃ f ∈ filenames, session_files.lookup f = none) →
      merge_pdfs filenames session_files =
        .error (.fileNotFound
          (filenames.filter (fun f => (session_files.lookup f).isNone))) ∧
      (∀ g, g ∈ filenames.filter (fun f => (session_files.lookup f).isNone) ↔
        g ∈ filenames ∧ session_files.lookup g = none)) ∧
    ((∀ f ∈ filenames, (session_files.lookup f).isSome) →
      merge_pdfs filenames session_files =
        .ok (filenames.flatMap (fun f => (session_files.lookup f).getD []))) := by
  constructor
  · rintro ⟨f, hf, hnone⟩
    have hmem : f ∈ filenames.filter (fun g => (session_files.lookup g).isNone) :=
      List.mem_filter.mpr ⟨hf, by rw [hnone]; rfl⟩
    have hne : filenames.filter (fun g => (session_files.lookup g).isNone) ≠ [] :=
      List.ne_nil_of_mem hmem
    constructor
    · unfold merge_pdfs
      rw [if_neg hne]
    · intro g
      rw [List.mem_filter, Option.isNone_iff_eq_none]
  · intro hall
    have hnil : filenames.filter (fun g => (session_files.lookup g).isNone) = [] := by
      rw [List.filter_eq_nil_iff]
      intro g hg
      rw [Bool.not_eq_true, Option.isNone_eq_false_iff]
      exact hall g hg
    unfold merge_pdfs
    rw [if_pos hnil]

theorem merge_pdfs_missing_or_append_witness :
    merge_pdfs [("a.pdf").toList, ("b.pdf").toList]
        [(("a.pdf").toList, [1, 2])] = .error (.fileNotFound [("b.pdf").toList]) ∧
    merge_pdfs [("a.pdf").toList] [(("a.pdf").toList, [1, 2])] = .ok [1, 2] := by
  constructor
  · have h := (merge_pdfs_missing_or_append [("a.pdf").toList, ("b.pdf").toList]
      [(("a.pdf").toList, ([1, 2] : List Nat))]).1 ⟨("b.pdf").toList, by decide, by decide⟩
    have he : ([("a.pdf").toList, ("b.pdf").toList].filter
        (fun f => (([(("a.pdf").toList, ([1, 2] : List Nat))].lookup f).isNone))) =
        [("b.pdf").toList] := by decide
    rw [he] at h
    exact h.1
  · have h := (merge_pdfs_missing_or_append [("a.pdf").toList]
      [(("a.pdf").toList, ([1, 2] : List Nat))]).2 (by decide)
    have he : ([("a.pdf").toList].flatMap
        (fun f => (([(("a.pdf").toList, ([1, 2] : List Nat))].lookup f).getD []))) =
        [1, 2] := by decide
    rw [he] at h
    exact h

/-- Claim C5: rotation writes all pages to the output in their original
order (page content is untouched), a page whose one-based number has no
mapped nonzero angle passes through unchanged, and rotation entries
naming pages outside the document are inert and raise no error. -/
theorem rotate_pages_frame {α : Type} (doc : List (PdfPage α)) (rots : List (Int × Int)) :
    (rotate_pages_in_pdf doc rots).map PdfPage.content = doc.map PdfPage.content ∧
    (∀ i : Nat, (rotationsDict rots ((i : Int) + 1)).getD 0 = 0 →
      (rotate_pages_in_pdf doc rots)[i]? = doc[i]?) ∧
    rotate_pages_in_pdf doc
        (rots.filter (fun r => decide (1 ≤ r.1 ∧ r.1 ≤ (doc.length : Int)))) =
      rotate_pages_in_pdf doc rots := by
  refine ⟨rotateAux_content rots doc 0, ?_, ?_⟩
  · intro i h
    rw [rotate_pages_in_pdf, rotateAux_getElem? rots doc 0 i]
    cases hd : doc[i]? with
    | none => rfl
    | some p =>
      rw [Option.map_some', Nat.zero_add, rotOne_id p h]
  · unfold rotate_pages_in_pdf
    apply rotateAux_congr
    intro k hk1 hk2
    unfold rotationsDict
    rw [← List.filter_reverse]
    refine lookup_filter_range (doc.length : Int) ?_ ?_
    · simpa using hk1
    · have h2 := hk2
      push_cast at h2
      omega

theorem rotate_pages_frame_witness :
    (rotate_pages_in_pdf [⟨0, 0⟩, ⟨1, 0⟩, ⟨2, 0⟩] [(2, 90), (99, 90)]).map PdfPage.content =
      ([⟨0, 0⟩, ⟨1, 0⟩, ⟨2, 0⟩] : List (PdfPage Nat)).map PdfPage.content ∧
    (rotate_pages_in_pdf [⟨0, 0⟩, ⟨1, 0⟩, ⟨2, 0⟩] [(2, 90), (99, 90)])[0]? =
      ([⟨0, 0⟩, ⟨1, 0⟩, ⟨2, 0⟩] : List (PdfPage Nat))[0]? ∧
    rotate_pages_in_pdf [⟨0, 0⟩, ⟨1, 0⟩, ⟨2, 0⟩] [(2, 90)] =
      rotate_pages_in_pdf ([⟨0, 0⟩, ⟨1, 0⟩, ⟨2, 0⟩] : List (PdfPage Nat)) [(2, 90), (99, 90)] := by
  have h := rotate_pages_frame ([⟨0, 0⟩, ⟨1, 0⟩, ⟨2, 0⟩] : List (PdfPage Nat)) [(2, 90), (99, 90)]
  refine ⟨h.1, h.2.1 0 (by decide), ?_⟩
  have h3 := h.2.2
  rw [(by decide : (([(2, 90), (99, 90)] : List (Int × Int)).filter
    (fun r => decide (1 ≤ r.1 ∧ r.1 ≤
      ((([⟨0, 0⟩, ⟨1, 0⟩, ⟨2, 0⟩] : List (PdfPage Nat)).length : Int))))) = [(2, 90)])] at h3
  exact h3

/-- Claim C10: when a rotation list holds several entries for the same
one-based page number, only the last entry's angle is applied (the dict
comprehension lets later entries overwrite earlier ones); dropping an
earlier duplicate never changes the output and no error is raised. -/
theorem rotate_last_duplicate_wins {α : Type} (doc : List (PdfPage α))
    (pre post : List (Int × Int)) (k a : Int) (h : k ∈ post.map Prod.fst) :
    rotate_pages_in_pdf doc (pre ++ (k, a) :: post) =
      rotate_pages_in_pdf doc (pre ++ post) := by
  unfold rotate_pages_in_pdf
  apply rotateAux_congr
  intro j _ _
  exact rotationsDict_drop_dup h j

theorem rotate_last_duplicate_wins_witness :
    rotate_pages_in_pdf ([⟨0, 0⟩, ⟨1, 0⟩] : List (PdfPage Nat)) [(1, 90), (1, 180)] =
      rotate_pages_in_pdf ([⟨0, 0⟩, ⟨1, 0⟩] : List (PdfPage Nat)) [(1, 180)] :=
  rotate_last_duplicate_wins ([⟨0, 0⟩, ⟨1, 0⟩] : List (PdfPage Nat)) [] [(1, 180)] 1 90
    (by decide)

/-- Claim C6, counterexample: when one source archive holds two entries
with the same name, ZipFile.read resolves the name to the last member,
so the first entry does not appear in the combined archive with its
original bytes — the claim fails for such an archive list. -/
theorem combine_archives_duplicate_name_cex :
    combine_archives [[(("a").toList, (0 : Nat)), (("a").toList, 1)]] =
      [(("file_1/a").toList, 1), (("file_1/a").toList, 1)] ∧
    (("file_1/a").toList, (0 : Nat)) ∉
      combine_archives [[(("a").toList, (0 : Nat)), (("a").toList, 1)]] := by
  constructor
  · decide
  · decide

/-- Claim C6, amended: provided each source archive's entry names are
duplicate-free (as the packaging step guarantees), every entry (n, b)
of archive i (1-based) appears in the combined archive renamed to
file_i/n with its original bytes, the combined entry names are
pairwise distinct (so same-named entries from different archives do
not collide), and the combined archive has exactly the entries of the
sources. -/
theorem combine_archives_renames {α : Type} (archives : List (List (Str × α)))
    (h : ∀ ar ∈ archives, (ar.map Prod.fst).Nodup) :
    (∀ i ar, archives[i]? = some ar →
      ∀ n b, (n, b) ∈ ar → (mkEntryName (i + 1) n, b) ∈ combine_archives archives) ∧
    ((combine_archives archives).map Prod.fst).Nodup ∧
    (combine_archives archives).length = (archives.map List.length).sum := by
  refine ⟨?_, combineAux_nodup_keys archives 1 h, combineAux_length archives 1⟩
  intro i ar hget n b hm
  obtain ⟨hlen, hia⟩ := List.getElem?_eq_some_iff.mp hget
  have hmem : ar ∈ archives := by
    rw [← hia]
    exact List.getElem_mem hlen
  have hres := combineAux_mem archives 1 i ar hget (h ar hmem) n b hm
  rwa [(by omega : 1 + i = i + 1)] at hres

theorem combine_archives_renames_witness :
    (("file_1/doc_page_1").toList, (10 : Nat)) ∈
      combine_archives [[(("doc_page_1").toList, (10 : Nat))],
        [(("doc_page_1").toList, 20)]] ∧
    (("file_2/doc_page_1").toList, (20 : Nat)) ∈
      combine_archives [[(("doc_page_1").toList, (10 : Nat))],
        [(("doc_page_1").toList, 20)]] ∧
    ((combine_archives [[(("doc_page_1").toList, (10 : Nat))],
        [(("doc_page_1").toList, 20)]]).map Prod.fst).Nodup := by
  have h := combine_archives_renames
    [[(("doc_page_1").toList, (10 : Nat))], [(("doc_page_1").toList, 20)]] (by decide)
  refine ⟨?_, ?_, h.2.1⟩
  · have h1 := h.1 0 [(("doc_page_1").toList, (10 : Nat))] (by decide)
      (("doc_page_1").toList) 10 (by decide)
    rwa [(by decide : mkEntryName (0 + 1) (("doc_page_1").toList) =
      ("file_1/doc_page_1").toList)] at h1
  · have h2 := h.1 1 [(("doc_page_1").toList, (20 : Nat))] (by decide)
      (("doc_page_1").toList) 20 (by decide)
    rwa [(by decide : mkEntryName (1 + 1) (("doc_page_1").toList) =
      ("file_2/doc_page_1").toList)] at h2

/-- Claim C8, counterexample: the except-clauses do not report a generic
detail — the user-facing 500 detail embeds the underlying exception
text, shown here for the split boundary (prefix plus exception text)
and the rotate route (exception text verbatim) at the exception
message boom. -/
theorem unexpected_detail_leaks_cex :
    split_unexpected (("boom").toList) =
      .internal (("Ошибка при обработке PDF: boom").toList) ∧
    (("boom").toList).IsSuffix (("Ошибка при обработке PDF: boom").toList) ∧
    rotate_route_unexpected (("boom").toList) = .internal (("boom").toList) := by
  refine ⟨by decide, ⟨("Ошибка при обработке PDF: ").toList, by decide⟩, rfl⟩

/-- Claim C8, amended: unexpected failures are caught at every operation
boundary and reported as the catch-all internal (HTTP 500) failure, but
the user-facing detail embeds the underlying exception text — appended
to a fixed message for split, merge, rotate and conversion in
src/utils.py, and verbatim for the rotate route in src/main.py — while
the diagnostic is also logged (logging is a side effect outside this
model). -/
theorem unexpected_detail_embeds_exception (e : Str) :
    (∃ d, split_unexpected e = .internal d ∧ e.IsSuffix d) ∧
    (∃ d, merge_unexpected e = .internal d ∧ e.IsSuffix d) ∧
    (∃ d, rotate_utils_unexpected e = .internal d ∧ e.IsSuffix d) ∧
    (∃ d, convert_unexpected e = .internal d ∧ e.IsSuffix d) ∧
    rotate_route_unexpected e = .internal e :=
  ⟨⟨_, rfl, ⟨("Ошибка при обработке PDF: ").toList, rfl⟩⟩,
   ⟨_, rfl, ⟨("Ошибка при объединении PDF: ").toList, rfl⟩⟩,
   ⟨_, rfl, ⟨("Ошибка при повороте страниц: ").toList, rfl⟩⟩,
   ⟨_, rfl, ⟨("Error converting PDF to JPEG: ").toList, rfl⟩⟩,
   rfl⟩
